import Mathlib

/-!
Shallow embedding of `src/lib/router.js` (athlete-flow/athlete-router).

The JavaScript router compiles route patterns to anchored regular
expressions through a `RegExpPatternBuilder`, flattens nested route trees
with prefix inheritance, rejects duplicate (method, regex-source) pairs at
construction time, and resolves a path/method pair by matching all
compiled entries and picking the most specific one.

The builder only ever receives four shapes of fragment (escaped literal
text, a default-constrained named capture group, a single-segment
wildcard, a deep wildcard), so the compiled regexes are modelled as lists
of those fragments.  Matching is modelled by a backtracking matcher with
JavaScript quantifier preferences: `[^/?#]+` is greedy, `.+?` is lazy,
and `.` excludes line terminators.  String operations used by the source
(`split`, `startsWith`, `slice`) are modelled at the character-list level
to mirror JavaScript semantics exactly.
-/

namespace AthleteRouter

/-- One fragment pushed onto `RegExpPatternBuilder.parts`.
`exact s` stands for the escaped literal `s` (router.js line 6-10),
`param name` for `(?<name>[^/?#]+)` (line 12-16; the compilers never pass
a custom constraint), `wildcard` for `[^/?#]+` (line 18-21) and
`deepWildcard` for `.+?` (line 23-26). -/
inductive Part where
  | exact (s : String)
  | param (name : String)
  | wildcard
  | deepWildcard
deriving DecidableEq, Repr

/-- Characters special to the regex grammar, from the escape in
`RegExpPatternBuilder.exact`: `/[.*+?^$\x7b\x7d()|[\]\\]/g`. -/
def isRegexSpecial (c : Char) : Bool :=
  c = '.' || c = '*' || c = '+' || c = '?' || c = '^' || c = '$' ||
  c = '\x7b' || c = '\x7d' || c = '(' || c = ')' || c = '|' ||
  c = '[' || c = ']' || c = '\\'

/-- Models `str.replace(/[.*+?^$\x7b\x7d()|[\]\\]/g, "\\$&")`. -/
def escapeRegex (s : String) : String :=
  String.mk (s.data.flatMap fun c => if isRegexSpecial c then ['\\', c] else [c])

/-- The regex source text a fragment contributes. -/
def renderPart : Part → String
  | Part.exact s => escapeRegex s
  | Part.param name => "(?<" ++ name ++ ">[^/?#]+)"
  | Part.wildcard => "[^/?#]+"
  | Part.deepWildcard => ".+?"

/-- Models `RegExpPatternBuilder.build`: `"^" + parts.join("") + "$"`; this is
the `regex.source` used as the duplicate-detection key. -/
def buildSource (parts : List Part) : String :=
  "^" ++ String.join (parts.map renderPart) ++ "$"

/-- A character matched by the class `[^/?#]` (negated classes do match
line terminators). -/
def pathChar (c : Char) : Bool :=
  !(c = '/' || c = '?' || c = '#')

/-- A character matched by `.` in a JavaScript regex without the `s`
flag: anything but a line terminator. -/
def dotChar (c : Char) : Bool :=
  !(c = '\n' || c = '\r' || c = '\u2028' || c = '\u2029')

/-- Length of the maximal run of characters satisfying `p` at the front
of the input: the most a `p`-restricted quantifier can consume. -/
def runLength (p : Char → Bool) : List Char → Nat
  | [] => 0
  | c :: rest => if p c then runLength p rest + 1 else 0

/-- Candidate lengths for a greedy `+` quantifier over a run of at most
`n` characters, longest first: `[n, n-1, ..., 1]`. -/
def greedyKs (n : Nat) : List Nat :=
  (List.range n).map fun j => n - j

/-- Candidate lengths for a lazy `+?` quantifier, shortest first:
`[1, 2, ..., n]`. -/
def lazyKs (n : Nat) : List Nat :=
  (List.range n).map fun j => j + 1

/-- Backtracking matcher for an anchored fragment list against the whole
input, following JavaScript quantifier preferences; returns the named
captures in fragment order on success (the `groups` of the match). -/
def matchParts : List Part → List Char → Option (List (String × String))
  | [] => fun input => if input.isEmpty then some [] else none
  | Part.exact s :: rest => fun input =>
      if s.data.isPrefixOf input then matchParts rest (input.drop s.data.length)
      else none
  | Part.param name :: rest => fun input =>
      (greedyKs (runLength pathChar input)).findSome? fun k =>
        (matchParts rest (input.drop k)).map fun gs =>
          (name, String.mk (input.take k)) :: gs
  | Part.wildcard :: rest => fun input =>
      (greedyKs (runLength pathChar input)).findSome? fun k =>
        matchParts rest (input.drop k)
  | Part.deepWildcard :: rest => fun input =>
      (lazyKs (runLength dotChar input)).findSome? fun k =>
        matchParts rest (input.drop k)

/-- Models `string.split(sep)` for a one-character separator, JavaScript
semantics: empty pieces are kept (`"a//b" → ["a","","b"]`,
`"/" → ["",""]`, `"" → [""]`). -/
def jsSplitGo (sep : Char) : List Char → List Char → List String
  | [], acc => [String.mk acc.reverse]
  | c :: rest, acc =>
      if c = sep then String.mk acc.reverse :: jsSplitGo sep rest []
      else jsSplitGo sep rest (c :: acc)

def jsSplit (sep : Char) (s : String) : List String :=
  jsSplitGo sep s.data []

/-- Models `pattern.startsWith(prefixStr)`. -/
def jsStartsWith (s t : String) : Bool :=
  t.data.isPrefixOf s.data

/-- Models `pattern.slice(n)` for a nonnegative `n`. -/
def jsSlice (s : String) (n : Nat) : String :=
  String.mk (s.data.drop n)

mutual
/-- A route object: its own `pattern`, the names of its function-valued
properties (the per-method handler slots; only presence matters to the
router), and its `children`.  `Routes` is an explicit list type so that
the tree recursion stays structural. -/
inductive Route where
  | mk (pattern : String) (handlers : List String) (children : Routes)
deriving DecidableEq, Repr
/-- A sequence of sibling routes. -/
inductive Routes where
  | nil
  | cons (head : Route) (tail : Routes)
deriving DecidableEq, Repr
end

def Route.pattern : Route → String
  | Route.mk p _ _ => p

def Route.handlers : Route → List String
  | Route.mk _ h _ => h

def Route.children : Route → Routes
  | Route.mk _ _ c => c

def routesOf : List Route → Routes
  | [] => Routes.nil
  | r :: rest => Routes.cons r (routesOf rest)

/-- Models `Router.#hasHandlers`: some configured method has a function-valued
slot on the route. -/
def hasHandlers (methods : List String) (r : Route) : Bool :=
  methods.any fun m => r.handlers.contains m

/-- Models `Router.#getHandlerMethods`: the configured methods the route
handles. -/
def getHandlerMethods (methods : List String) (r : Route) : List String :=
  methods.filter fun m => r.handlers.contains m

mutual
/-- Models `Router.#flattenRoutes` (router.js lines 95-105), one route: a child
builder starts from a copy of the parent builder's fragments after the
parent's own pattern was compiled; a route enters the table only if it
has at least one handler. -/
def flattenOne (methods : List String) (compile : String → List Part → List Part) :
    Route → List Part → List (Route × List Part)
  | Route.mk p h c, parentParts =>
    let parts := compile p parentParts
    (if hasHandlers methods (Route.mk p h c) then [(Route.mk p h c, parts)] else []) ++
      flattenRoutes methods compile c parts
/-- Models `Router.#flattenRoutes`, pre-order over a sibling list. -/
def flattenRoutes (methods : List String) (compile : String → List Part → List Part) :
    Routes → List Part → List (Route × List Part)
  | Routes.nil, _ => []
  | Routes.cons r rest, parentParts =>
    flattenOne methods compile r parentParts ++ flattenRoutes methods compile rest parentParts
end

/-- The discriminator keys `method + ":" + regex.source` checked by
`Router.#checkDuplicates`, in table order. -/
def dupKeys (methods : List String) (entries : List (Route × List Part)) : List String :=
  entries.flatMap fun entry =>
    (getHandlerMethods methods entry.1).map fun m => m ++ ":" ++ buildSource entry.2

/-- Models `Router.#checkDuplicates`, which throws iff some key repeats. -/
def hasDupKey : List String → Bool
  | [] => false
  | k :: rest => rest.contains k || hasDupKey rest

/-- The constructed router: configured methods plus the flattened
compiled table. -/
structure Engine where
  methods : List String
  entries : List (Route × List Part)
deriving DecidableEq, Repr

/-- The `Router` constructor: flatten, then fail (return `none`) on a
duplicate discriminator, else the engine exists. -/
def mkRouter (methods : List String) (compile : String → List Part → List Part)
    (routes : Routes) : Option Engine :=
  let entries := flattenRoutes methods compile routes []
  if hasDupKey (dupKeys methods entries) then none else some (Engine.mk methods entries)

/-- Models `MatchedRoute`: the winning route plus the named captures of its
match. -/
structure Matched where
  route : Route
  groups : List (String × String)
deriving DecidableEq, Repr

/-- The property key JavaScript looks up for `route[method]`: an omitted
(`undefined`) method argument is coerced to the string "undefined". -/
def methodKey : Option String → String
  | some m => m
  | none => "undefined"

/-- Models `Router.resolve` (router.js lines 107-115): keep entries whose regex
matches the path and whose route carries a truthy `method` property;
return `null` when none survive, else the selection strategy's pick. -/
def resolve (e : Engine) (select : List Matched → Option Matched)
    (path : String) (method : Option String) : Option Matched :=
  let matched := e.entries.filterMap fun entry =>
    match matchParts entry.2 path.data with
    | some gs =>
        if entry.1.handlers.contains (methodKey method) then some (Matched.mk entry.1 gs)
        else none
    | none => none
  if matched.isEmpty then none else select matched

def httpMethods : List String :=
  ["get", "post", "put", "delete", "patch", "head", "options"]

/-- Models `pattern.split("/").filter(Boolean)`. -/
def httpSegments (p : String) : List String :=
  (jsSplit '/' p).filter fun s => s != ""

/-- The per-segment loop of `compileHttpPattern` (router.js lines
123-132): `:name` becomes a param, `*` a wildcard, `**` a deep wildcard
that stops compilation, anything else a literal; a `/` separator follows
every emitted segment except the last and except after `**`. -/
def compileHttpSegs : List String → List Part
  | [] => []
  | seg :: rest =>
    if jsStartsWith seg ":" then
      Part.param (jsSlice seg 1) :: (if rest.isEmpty then [] else [Part.exact "/"]) ++
        compileHttpSegs rest
    else if seg = "*" then
      Part.wildcard :: (if rest.isEmpty then [] else [Part.exact "/"]) ++
        compileHttpSegs rest
    else if seg = "**" then
      [Part.deepWildcard]
    else
      Part.exact seg :: (if rest.isEmpty then [] else [Part.exact "/"]) ++
        compileHttpSegs rest

/-- Models `compileHttpPattern`: append to the inherited builder a leading
literal `/` and then the compiled segments. -/
def compileHttpParts (pattern : String) (builder : List Part) : List Part :=
  builder ++ Part.exact "/" :: compileHttpSegs (httpSegments pattern)

/-- Segment-kind bonus of `calculateRouteSpecificity` (router.js lines
143-146): deep wildcard 1, wildcard 10, param 100, literal 1000. -/
def segKindBonus (segment : String) : Nat :=
  if segment = "**" then 1
  else if segment = "*" then 10
  else if jsStartsWith segment ":" then 100
  else 1000

/-- The indexed loop of the specificity scorers: segment at index `i`
contributes `(total - i) * 1000` position weight plus its kind bonus. -/
def specAux (bonus : String → Nat) (total : Nat) : Nat → List String → Nat
  | _, [] => 0
  | i, s :: rest => ((total - i) * 1000 + bonus s) + specAux bonus total (i + 1) rest

/-- Models `calculateRouteSpecificity` on the route's own pattern string. -/
def calculatePatternSpecificity (pattern : String) : Nat :=
  (httpSegments pattern).length * 10000 +
    specAux segKindBonus (httpSegments pattern).length 0 (httpSegments pattern)

/-- Models `calculateRouteSpecificity(route)`, which reads only
`route.getRoute().pattern`. -/
def calculateRouteSpecificity (m : Matched) : Nat :=
  calculatePatternSpecificity m.route.pattern

/-- Models `selectMostSpecificRoute`: scan left to right, replacing the champion
only on a strictly greater score. -/
def selectMostSpecificRoute (matched : List Matched) : Option Matched :=
  match matched with
  | [] => none
  | first :: rest =>
    some (rest.foldl
      (fun best x =>
        if calculateRouteSpecificity best < calculateRouteSpecificity x then x else best)
      first)

/-- Models `createHttpRouter`. -/
def createHttpRouter (routes : List Route) : Option Engine :=
  mkRouter httpMethods compileHttpParts (routesOf routes)

def wsMethods : List String :=
  ["connect", "disconnect", "message"]

/-- Models `pattern.split(":").filter(Boolean)`. -/
def wsSegments (p : String) : List String :=
  (jsSplit ':' p).filter fun s => s != ""

/-- The per-segment loop of `compileWsPattern` (router.js lines
174-180). -/
def compileWsSegs : List String → List Part
  | [] => []
  | seg :: rest =>
    (if seg = "*" then Part.wildcard else Part.exact seg) ::
      (if rest.isEmpty then [] else [Part.exact ":"]) ++ compileWsSegs rest

/-- Models `compileWsPattern`: a pattern that starts with `:` re-emits the
leading `:` before its first segment (only when some segment exists,
since the emission happens inside the loop at index 0). -/
def compileWsParts (pattern : String) (builder : List Part) : List Part :=
  let segments := wsSegments pattern
  let lead := if jsStartsWith pattern ":" && !segments.isEmpty then [Part.exact ":"] else []
  builder ++ lead ++ compileWsSegs segments

/-- Segment-kind bonus of `calculateWsSpecificity` (router.js lines
191-192): wildcard 10, anything else 1000. -/
def wsSegKindBonus (segment : String) : Nat :=
  if segment = "*" then 10 else 1000

/-- Models `calculateWsSpecificity` on the route's own pattern string. -/
def calculateWsPatternSpecificity (pattern : String) : Nat :=
  let segments := wsSegments pattern
  segments.length * 10000 + specAux wsSegKindBonus segments.length 0 segments

def calculateWsSpecificity (m : Matched) : Nat :=
  calculateWsPatternSpecificity m.route.pattern

/-- Models `selectMostSpecificWsRoute`: same scan with the WS scorer. -/
def selectMostSpecificWsRoute (matched : List Matched) : Option Matched :=
  match matched with
  | [] => none
  | first :: rest =>
    some (rest.foldl
      (fun best x =>
        if calculateWsSpecificity best < calculateWsSpecificity x then x else best)
      first)

/-- Models `createWsRouter`. -/
def createWsRouter (routes : List Route) : Option Engine :=
  mkRouter wsMethods compileWsParts (routesOf routes)

/-- The C1 engine: four routes `a/**`, `a/*`, `a/:id`, `a/b`, each
exposing a handler for the one common method `m`. -/
def c1Routes (m : String) : List Route :=
  [Route.mk "a/**" [m] Routes.nil, Route.mk "a/*" [m] Routes.nil,
   Route.mk "a/:id" [m] Routes.nil, Route.mk "a/b" [m] Routes.nil]

/-- The four segment kinds of the HTTP pattern grammar in increasing
order of specificity: deep wildcard 0, wildcard 1, named parameter 2,
literal 3 (classified exactly as the scorer classifies segments). -/
def kindRank (segment : String) : Nat :=
  if segment = "**" then 0
  else if segment = "*" then 1
  else if jsStartsWith segment ":" then 2
  else 3

/-- Position-weight-plus-bonus sum written by suffix length: the head of
a suffix of length `n` carries weight `n * 1000`, matching
`(total - i) * 1000` at index `i`. -/
def segScore (bonus : String → Nat) : List String → Nat
  | [] => 0
  | s :: rest => ((rest.length + 1) * 1000 + bonus s) + segScore bonus rest

theorem specAux_eq_segScore (bonus : String → Nat) :
    ∀ (l : List String) (total i : Nat), total = i + l.length →
      specAux bonus total i l = segScore bonus l := by
  intro l
  induction l with
  | nil => intro total i h; rfl
  | cons s rest ih =>
    intro total i h
    simp only [List.length_cons] at h
    simp only [specAux, segScore]
    rw [ih total (i + 1) (by omega)]
    have ht : total - i = rest.length + 1 := by omega
    rw [ht]

theorem calculatePatternSpecificity_eq (p : String) :
    calculatePatternSpecificity p =
      (httpSegments p).length * 10000 + segScore segKindBonus (httpSegments p) := by
  unfold calculatePatternSpecificity
  rw [specAux_eq_segScore segKindBonus (httpSegments p) (httpSegments p).length 0 (by simp)]

theorem segKindBonus_lt_of_kindRank_lt {s1 s2 : String}
    (h : kindRank s2 < kindRank s1) : segKindBonus s2 < segKindBonus s1 := by
  unfold kindRank segKindBonus at *
  split_ifs at h ⊢ <;> omega

theorem segScore_middle_lt (bonus : String → Nat) (pre post : List String)
    {s1 s2 : String} (h : bonus s2 < bonus s1) :
    segScore bonus (pre ++ s2 :: post) < segScore bonus (pre ++ s1 :: post) := by
  induction pre with
  | nil => simp only [List.nil_append, segScore]; omega
  | cons a pre ih =>
    rw [List.cons_append, List.cons_append]
    show ((pre ++ s2 :: post).length + 1) * 1000 + bonus a + segScore bonus (pre ++ s2 :: post) <
      ((pre ++ s1 :: post).length + 1) * 1000 + bonus a + segScore bonus (pre ++ s1 :: post)
    have hlen : (pre ++ s2 :: post).length = (pre ++ s1 :: post).length := by
      simp [List.length_append]
    omega

theorem segScore_le_append (bonus : String → Nat) (l extra : List String) :
    segScore bonus l ≤ segScore bonus (l ++ extra) := by
  induction l with
  | nil => exact Nat.zero_le _
  | cons a l ih =>
    rw [List.cons_append]
    show (l.length + 1) * 1000 + bonus a + segScore bonus l ≤
      ((l ++ extra).length + 1) * 1000 + bonus a + segScore bonus (l ++ extra)
    have hlen : (l ++ extra).length = l.length + extra.length := List.length_append l extra
    omega

/-- C4: the default HTTP specificity score is order-correct.  Among two
patterns whose segment lists agree except at one shared position, the one
whose segment there has the higher kind (literal > param > wildcard >
deep wildcard) scores strictly higher; and a pattern whose segment list
extends another pattern's segment list scores strictly higher than the
shorter one. -/
theorem specificity_ordering :
    (∀ (p1 p2 : String) (pre post : List String) (s1 s2 : String),
        httpSegments p1 = pre ++ s1 :: post →
        httpSegments p2 = pre ++ s2 :: post →
        kindRank s2 < kindRank s1 →
        calculatePatternSpecificity p2 < calculatePatternSpecificity p1) ∧
    (∀ (p1 p2 : String) (extra : List String),
        httpSegments p2 = httpSegments p1 ++ extra →
        extra ≠ [] →
        calculatePatternSpecificity p1 < calculatePatternSpecificity p2) := by
  constructor
  · intro p1 p2 pre post s1 s2 h1 h2 hk
    rw [calculatePatternSpecificity_eq, calculatePatternSpecificity_eq, h1, h2]
    have hlen : (pre ++ s2 :: post).length = (pre ++ s1 :: post).length := by
      simp [List.length_append]
    have hs := segScore_middle_lt segKindBonus pre post
      (segKindBonus_lt_of_kindRank_lt hk)
    omega
  · intro p1 p2 extra h2 hne
    rw [calculatePatternSpecificity_eq, calculatePatternSpecificity_eq, h2]
    have hs := segScore_le_append segKindBonus (httpSegments p1) extra
    have hlen : (httpSegments p1 ++ extra).length = (httpSegments p1).length + extra.length :=
      List.length_append _ _
    have hpos : 1 ≤ extra.length := List.length_pos.mpr hne
    omega

/-- Witness for `specificity_ordering`: literal beats param at the second
position of a two-segment pattern, and a three-segment extension beats
its one-segment kind-profile prefix. -/
theorem specificity_ordering_witness :
    calculatePatternSpecificity "a/:id" < calculatePatternSpecificity "a/b" ∧
    calculatePatternSpecificity "api/:v" < calculatePatternSpecificity "api/:v/users" :=
  ⟨specificity_ordering.1 "a/b" "a/:id" ["a"] [] "b" ":id" rfl rfl (by decide),
   specificity_ordering.2 "api/:v" "api/:v/users" ["users"] rfl (by decide)⟩

/-- The champion scan of both selectors: the result splits the list at
the first element attaining the maximal score — everything before it
scores strictly lower, everything after at most as much. -/
theorem foldl_first_max {α : Type} (score : α → Nat) :
    ∀ (rest : List α) (best r : α),
      rest.foldl (fun b x => if score b < score x then x else b) best = r →
      ∃ l1 l2, best :: rest = l1 ++ r :: l2 ∧
        (∀ y ∈ l1, score y < score r) ∧ (∀ y ∈ l2, score y ≤ score r) := by
  intro rest
  induction rest with
  | nil =>
    intro best r h
    simp only [List.foldl_nil] at h
    subst h
    exact ⟨[], [], rfl, by simp, by simp⟩
  | cons x rest2 ih =>
    intro best r h
    simp only [List.foldl_cons] at h
    by_cases hc : score best < score x
    · rw [if_pos hc] at h
      obtain ⟨l1, l2, hdec, hlt, hle⟩ := ih x r h
      refine ⟨best :: l1, l2, by rw [List.cons_append, ← hdec], ?_, hle⟩
      intro y hy
      rcases List.mem_cons.mp hy with hy | hy
      · subst hy
        rcases l1 with _ | ⟨a, l1t⟩
        · have hx : x = r := by
            have := congrArg (fun l => l.head?) hdec
            simpa using this
          exact hx ▸ hc
        · have ha : x = a := by
            have := congrArg (fun l => l.head?) hdec
            simpa using this
          have hxr : score x < score r := by rw [ha]; exact hlt a (by simp)
          omega
      · exact hlt y hy
    · rw [if_neg hc] at h
      obtain ⟨l1, l2, hdec, hlt, hle⟩ := ih best r h
      rcases l1 with _ | ⟨a, l1t⟩
      · simp only [List.nil_append] at hdec
        obtain ⟨hbr, hl2⟩ : best = r ∧ rest2 = l2 := by
          constructor
          · have := congrArg (fun l => l.head?) hdec
            simpa using this
          · have := congrArg (fun l => l.tail) hdec
            simpa using this
        refine ⟨[], x :: rest2, by simp [hbr], by simp, ?_⟩
        intro y hy
        rcases List.mem_cons.mp hy with hy | hy
        · subst hy
          rw [← hbr]
          omega
        · exact hle y (hl2 ▸ hy)
      · obtain ⟨hab, htl⟩ : best = a ∧ rest2 = l1t ++ r :: l2 := by
          constructor
          · have := congrArg (fun l => l.head?) hdec
            simpa using this
          · have := congrArg (fun l => l.tail) hdec
            simpa using this
        have hbestr : score best < score r := by rw [hab]; exact hlt a (by simp)
        refine ⟨best :: x :: l1t, l2, by rw [htl]; rfl, ?_, hle⟩
        intro y hy
        rcases List.mem_cons.mp hy with hy | hy
        · subst hy; exact hbestr
        · rcases List.mem_cons.mp hy with hy | hy
          · subst hy; omega
          · exact hlt y (by simp [hy])

/-- C8: both default selectors pick, among the matched routes sharing the
maximal specificity score, the one occurring earliest in the matched
list; elements before the pick score strictly lower and elements after it
never score higher. -/
theorem select_most_specific_first_of_ties :
    (∀ (l : List Matched) (r : Matched),
        selectMostSpecificRoute l = some r →
        ∃ l1 l2, l = l1 ++ r :: l2 ∧
          (∀ y ∈ l1, calculateRouteSpecificity y < calculateRouteSpecificity r) ∧
          (∀ y ∈ l2, calculateRouteSpecificity y ≤ calculateRouteSpecificity r)) ∧
    (∀ (l : List Matched) (r : Matched),
        selectMostSpecificWsRoute l = some r →
        ∃ l1 l2, l = l1 ++ r :: l2 ∧
          (∀ y ∈ l1, calculateWsSpecificity y < calculateWsSpecificity r) ∧
          (∀ y ∈ l2, calculateWsSpecificity y ≤ calculateWsSpecificity r)) := by
  constructor
  · intro l r h
    match l with
    | [] => simp [selectMostSpecificRoute] at h
    | first :: rest =>
      simp only [selectMostSpecificRoute, Option.some.injEq] at h
      exact foldl_first_max calculateRouteSpecificity rest first r h
  · intro l r h
    match l with
    | [] => simp [selectMostSpecificWsRoute] at h
    | first :: rest =>
      simp only [selectMostSpecificWsRoute, Option.some.injEq] at h
      exact foldl_first_max calculateWsSpecificity rest first r h

/-- Witness for `select_most_specific_first_of_ties`: two one-literal
routes tie exactly, and each selector returns the first of them. -/
theorem select_most_specific_first_of_ties_witness :
    (∃ l1 l2,
      [Matched.mk (Route.mk "a" ["get"] Routes.nil) [],
       Matched.mk (Route.mk "b" ["get"] Routes.nil) []] =
        l1 ++ (Matched.mk (Route.mk "a" ["get"] Routes.nil) []) :: l2 ∧
      (∀ y ∈ l1, calculateRouteSpecificity y <
        calculateRouteSpecificity (Matched.mk (Route.mk "a" ["get"] Routes.nil) [])) ∧
      (∀ y ∈ l2, calculateRouteSpecificity y ≤
        calculateRouteSpecificity (Matched.mk (Route.mk "a" ["get"] Routes.nil) []))) ∧
    (∃ l1 l2,
      [Matched.mk (Route.mk "a" ["message"] Routes.nil) [],
       Matched.mk (Route.mk "b" ["message"] Routes.nil) []] =
        l1 ++ (Matched.mk (Route.mk "a" ["message"] Routes.nil) []) :: l2 ∧
      (∀ y ∈ l1, calculateWsSpecificity y <
        calculateWsSpecificity (Matched.mk (Route.mk "a" ["message"] Routes.nil) [])) ∧
      (∀ y ∈ l2, calculateWsSpecificity y ≤
        calculateWsSpecificity (Matched.mk (Route.mk "a" ["message"] Routes.nil) []))) :=
  ⟨select_most_specific_first_of_ties.1
      [Matched.mk (Route.mk "a" ["get"] Routes.nil) [],
       Matched.mk (Route.mk "b" ["get"] Routes.nil) []]
      (Matched.mk (Route.mk "a" ["get"] Routes.nil) []) rfl,
   select_most_specific_first_of_ties.2
      [Matched.mk (Route.mk "a" ["message"] Routes.nil) [],
       Matched.mk (Route.mk "b" ["message"] Routes.nil) []]
      (Matched.mk (Route.mk "a" ["message"] Routes.nil) []) rfl⟩

theorem take_all_of_le_runLength (p : Char → Bool) :
    ∀ (l : List Char) (k : Nat), k ≤ runLength p l → (l.take k).all p = true := by
  intro l
  induction l with
  | nil => intro k hk; simp [runLength] at hk; simp [hk]
  | cons c rest ih =>
    intro k hk
    match k with
    | 0 => simp
    | k + 1 =>
      simp only [runLength] at hk
      by_cases hp : p c
      · rw [if_pos hp] at hk
        simp only [List.take_succ_cons, List.all_cons, hp, Bool.true_and]
        exact ih k (by omega)
      · rw [if_neg hp] at hk
        omega

theorem bounds_of_mem_greedyKs {k n : Nat} (h : k ∈ greedyKs n) : 1 ≤ k ∧ k ≤ n := by
  simp only [greedyKs, List.mem_map, List.mem_range] at h
  obtain ⟨j, hj, rfl⟩ := h
  omega

/-- Every named capture produced by the matcher consists solely of
characters allowed by the class `[^/?#]`: params only ever consume
path characters. -/
theorem matchParts_groups_pathChars :
    ∀ (ps : List Part) (input : List Char) (gs : List (String × String)),
      matchParts ps input = some gs →
      ∀ pr ∈ gs, pr.2.data.all pathChar = true := by
  intro ps
  induction ps with
  | nil =>
    intro input gs h
    simp only [matchParts] at h
    split at h
    · simp only [Option.some.injEq] at h
      subst h
      simp
    · exact absurd h (by simp)
  | cons part rest ih =>
    intro input gs h
    match part with
    | Part.exact s =>
      simp only [matchParts] at h
      split at h
      · exact ih _ _ h
      · exact absurd h (by simp)
    | Part.param name =>
      simp only [matchParts] at h
      obtain ⟨k, hk, hfk⟩ := List.exists_of_findSome?_eq_some h
      obtain ⟨gs0, hgs0, hcons⟩ := Option.map_eq_some'.mp hfk
      subst hcons
      intro pr hpr
      rcases List.mem_cons.mp hpr with hpr | hpr
      · subst hpr
        have hbound := bounds_of_mem_greedyKs hk
        exact take_all_of_le_runLength pathChar input k hbound.2
      · exact ih _ _ hgs0 pr hpr
    | Part.wildcard =>
      simp only [matchParts] at h
      obtain ⟨k, hk, hfk⟩ := List.exists_of_findSome?_eq_some h
      exact ih _ _ hfk
    | Part.deepWildcard =>
      simp only [matchParts] at h
      obtain ⟨k, hk, hfk⟩ := List.exists_of_findSome?_eq_some h
      exact ih _ _ hfk

/-- A successful match through a `wildcard` fragment consumes a nonempty
region made only of path characters (no `/`, `?`, `#`) and leaves a match
of the remaining fragments. -/
theorem matchParts_wildcard_region (rest : List Part) (input : List Char)
    (h : (matchParts (Part.wildcard :: rest) input).isSome = true) :
    ∃ k, 0 < k ∧ (input.take k).all pathChar = true ∧
      (matchParts rest (input.drop k)).isSome = true := by
  obtain ⟨gs, hgs⟩ := Option.isSome_iff_exists.mp h
  simp only [matchParts] at hgs
  obtain ⟨k, hk, hfk⟩ := List.exists_of_findSome?_eq_some hgs
  have hbound := bounds_of_mem_greedyKs hk
  exact ⟨k, by omega, take_all_of_le_runLength pathChar input k hbound.2, by simp [hfk]⟩

/-- C3 (amended): named-parameter and single-wildcard regions never
contain `/`, `?` or `#` — in particular "/users/123?x=1" does not match
`users/:id`; deep-wildcard regions, however, compile to `.+?` and are
not so restricted (see the counterexample). -/
theorem wildcard_param_exclude_query_fragment :
    (∀ (ps : List Part) (input : List Char) (gs : List (String × String)),
        matchParts ps input = some gs →
        ∀ pr ∈ gs, pr.2.data.all pathChar = true) ∧
    matchParts (compileHttpParts "users/:id" []) "/users/123?x=1".data = none ∧
    (∀ (rest : List Part) (input : List Char),
        (matchParts (Part.wildcard :: rest) input).isSome = true →
        ∃ k, 0 < k ∧ (input.take k).all pathChar = true ∧
          (matchParts rest (input.drop k)).isSome = true) :=
  ⟨matchParts_groups_pathChars, rfl, matchParts_wildcard_region⟩

/-- Witness for `wildcard_param_exclude_query_fragment`: the capture of
`users/:id` on "/users/123" is all path characters, and the wildcard of a
single-wildcard pattern on "ab" consumes only path characters. -/
theorem wildcard_param_exclude_query_fragment_witness :
    (("id", "123") : String × String).2.data.all pathChar = true ∧
    (∃ k, 0 < k ∧ ("ab".data.take k).all pathChar = true ∧
      (matchParts [] ("ab".data.drop k)).isSome = true) :=
  ⟨wildcard_param_exclude_query_fragment.1 (compileHttpParts "users/:id" [])
      "/users/123".data [("id", "123")] rfl ("id", "123") (by simp),
   wildcard_param_exclude_query_fragment.2.2 [] "ab".data rfl⟩

/-- C3 counterexample: the deep-wildcard pattern `files/**` compiles to
`^/files/.+?$`, whose `.+?` region happily consumes `?`: the input
"/files/a?x=1" (whose deep-matched region "a?x=1" contains `?`) matches. -/
theorem deep_wildcard_consumes_query_counterexample :
    matchParts (compileHttpParts "files/**" []) ("/files/" ++ "a?x=1").data = some [] ∧
    '?' ∈ ("a?x=1" : String).data :=
  ⟨rfl, by decide⟩

/-- Shared helper: when every table entry either fails to match the path
or lacks a truthy property under the looked-up method key, the filtered
list is empty and `resolve` returns `none` before consulting the
selection strategy. -/
theorem resolve_eq_none_of_filtered (e : Engine) (select : List Matched → Option Matched)
    (path : String) (method : Option String)
    (hnone : ∀ entry ∈ e.entries, matchParts entry.2 path.data = none ∨
      entry.1.handlers.contains (methodKey method) = false) :
    resolve e select path method = none := by
  unfold resolve
  have hempty : (e.entries.filterMap fun entry =>
      match matchParts entry.2 path.data with
      | some gs =>
          if entry.1.handlers.contains (methodKey method) then some (Matched.mk entry.1 gs)
          else none
      | none => none) = [] := by
    rw [List.filterMap_eq_nil_iff]
    intro entry hentry
    rcases hnone entry hentry with h | h
    · simp [h]
    · cases hm : matchParts entry.2 path.data with
      | none => simp [hm]
      | some gs =>
        simp only [hm]
        rw [h]
        simp
  rw [hempty]
  rfl

/-- C6: on any constructed engine, whenever no compiled entry both
matches the path and exposes a handler for the requested method,
`resolve` returns the absent value (`none`) — it never reaches the
selection strategy, and the embedding of `resolve` is a total function
(no failure path exists at resolve time). -/
theorem resolve_no_match_returns_none :
    ∀ (methods : List String) (compile : String → List Part → List Part) (routes : Routes)
      (e : Engine) (select : List Matched → Option Matched) (path : String)
      (method : Option String),
      mkRouter methods compile routes = some e →
      (∀ entry ∈ e.entries, matchParts entry.2 path.data = none ∨
        entry.1.handlers.contains (methodKey method) = false) →
      resolve e select path method = none := by
  intro methods compile routes e select path method _ hnone
  exact resolve_eq_none_of_filtered e select path method hnone

/-- Witness for `resolve_no_match_returns_none`: an engine with the sole
route `users` (method `get`) resolves "/posts" with `get` to `none`. -/
theorem resolve_no_match_returns_none_witness :
    resolve
      (Engine.mk httpMethods
        [(Route.mk "users" ["get"] Routes.nil, [Part.exact "/", Part.exact "users"])])
      selectMostSpecificRoute "/posts" (some "get") = none :=
  resolve_no_match_returns_none httpMethods compileHttpParts
    (routesOf [Route.mk "users" ["get"] Routes.nil])
    (Engine.mk httpMethods
      [(Route.mk "users" ["get"] Routes.nil, [Part.exact "/", Part.exact "users"])])
    selectMostSpecificRoute "/posts" (some "get") rfl (by decide)

/-- C7: the path-style compiler on the bare root pattern "/" produces a
compiled expression that matches the string "/" and no other string. -/
theorem root_pattern_matches_only_separator :
    ∀ s : String, (matchParts (compileHttpParts "/" []) s.data).isSome = true ↔ s = "/" := by
  intro s
  have hparts : compileHttpParts "/" [] = [Part.exact "/"] := rfl
  rw [hparts]
  have hlist : ∀ l : List Char, (matchParts [Part.exact "/"] l).isSome = true ↔ l = ['/'] := by
    intro l
    have hd : ("/" : String).data = ['/'] := rfl
    match l with
    | [] => simp [matchParts, hd, List.isPrefixOf]
    | c :: t =>
      simp only [matchParts, hd]
      have h1 : (['/'] : List Char).isPrefixOf (c :: t) = ('/' == c) := by
        simp [List.isPrefixOf]
      rw [h1]
      by_cases hc : ('/' : Char) = c
      · subst hc
        simp only [beq_self_eq_true, if_true]
        cases t with
        | nil => simp
        | cons d t2 => simp
      · have hc2 : ('/' == c) = false := beq_eq_false_iff_ne.mpr hc
        rw [hc2]
        simp only [Bool.false_eq_true, if_false, Option.isSome_none, false_iff]
        intro heq
        have : c = '/' ∧ t = [] := by
          constructor
          · exact (List.cons.injEq c t '/' []).mp heq |>.1
          · exact (List.cons.injEq c t '/' []).mp heq |>.2
        exact hc this.1.symm
  rw [hlist s.data]
  constructor
  · intro h
    exact String.ext h
  · intro h
    rw [h]

/-- Witness for `root_pattern_matches_only_separator` at the input "/". -/
theorem root_pattern_matches_only_separator_witness :
    (matchParts (compileHttpParts "/" []) ("/" : String).data).isSome = true :=
  (root_pattern_matches_only_separator "/").mpr rfl

/-- C10 (amended): with the method argument omitted, JavaScript looks up
the property literally named "undefined"; on any constructed engine none
of whose table routes carries such a property, `resolve` without a method
returns `none` for every path. -/
theorem resolve_undefined_method_returns_none :
    ∀ (methods : List String) (compile : String → List Part → List Part) (routes : Routes)
      (e : Engine) (select : List Matched → Option Matched) (path : String),
      mkRouter methods compile routes = some e →
      (∀ entry ∈ e.entries, entry.1.handlers.contains "undefined" = false) →
      resolve e select path none = none := by
  intro methods compile routes e select path _ hno
  refine resolve_eq_none_of_filtered e select path none ?_
  intro entry hentry
  exact Or.inr (hno entry hentry)

/-- Witness for `resolve_undefined_method_returns_none`: the engine with
the sole route `a` (method `get`) resolves "/a" without a method to
`none`, even though its compiled expression matches "/a". -/
theorem resolve_undefined_method_returns_none_witness :
    resolve
      (Engine.mk httpMethods
        [(Route.mk "a" ["get"] Routes.nil, [Part.exact "/", Part.exact "a"])])
      selectMostSpecificRoute "/a" none = none :=
  resolve_undefined_method_returns_none httpMethods compileHttpParts
    (routesOf [Route.mk "a" ["get"] Routes.nil])
    (Engine.mk httpMethods
      [(Route.mk "a" ["get"] Routes.nil, [Part.exact "/", Part.exact "a"])])
    selectMostSpecificRoute "/a" rfl (by decide)

/-- C10 counterexample: a route can carry a truthy property literally
named "undefined"; such an engine constructs fine, and `resolve` with the
method omitted returns a match (not `none`) because
`route[undefined]` reads the "undefined" property. -/
theorem resolve_undefined_method_counterexample :
    (createHttpRouter [Route.mk "a" ["get", "undefined"] Routes.nil]).map
      (fun e => resolve e selectMostSpecificRoute "/a" none) =
    some (some (Matched.mk (Route.mk "a" ["get", "undefined"] Routes.nil) [])) :=
  rfl

/-- C1 (amended): with the four routes `a/**`, `a/*`, `a/:id`, `a/b` all
exposing the same HTTP method, resolving the path "/a/b" (the compiler
always anchors a leading `/`, so the path must carry it) returns the
`a/b` route. -/
theorem resolve_specificity_needs_leading_separator :
    ∀ m : String, m ∈ httpMethods →
      (createHttpRouter (c1Routes m)).map
        (fun e => resolve e selectMostSpecificRoute "/a/b" (some m)) =
      some (some (Matched.mk (Route.mk "a/b" [m] Routes.nil) [])) := by
  intro m hm
  fin_cases hm <;> rfl

/-- Witness for `resolve_specificity_needs_leading_separator` at the
method `get`. -/
theorem resolve_specificity_needs_leading_separator_witness :
    (createHttpRouter (c1Routes "get")).map
      (fun e => resolve e selectMostSpecificRoute "/a/b" (some "get")) =
    some (some (Matched.mk (Route.mk "a/b" ["get"] Routes.nil) [])) :=
  resolve_specificity_needs_leading_separator "get" (by decide)

/-- C1 counterexample: on that same engine the claim's path string "a/b"
(without the leading separator) matches no compiled entry — every
compiled expression starts with the root `/` — so `resolve` returns
`none`, not the `a/b` route. -/
theorem resolve_specificity_relative_path_counterexample :
    (createHttpRouter (c1Routes "get")).map
      (fun e => resolve e selectMostSpecificRoute "a/b" (some "get")) = some none :=
  rfl

/-- C2 counterexample: `users/:id` and `users/:name` for the same method
do NOT collide — the parameter name appears in the compiled source
(`(?<id>…)` vs `(?<name>…)`), so the discriminators differ and
construction succeeds. -/
theorem duplicate_param_names_counterexample :
    (createHttpRouter
      [Route.mk "users/:id" ["get"] Routes.nil,
       Route.mk "users/:name" ["get"] Routes.nil]).isSome = true :=
  rfl

/-- C2 (amended): construction with `users/:id` and `users/:name` for the
same method succeeds, because the two compiled discriminators differ (the
parameter name is part of the capture-group label in the expression's
source text); a duplicate-route conflict arises exactly for identical
discriminators, e.g. registering the pattern `users/:id` twice for the
same method fails construction. -/
theorem duplicate_detection_uses_source_text :
    (createHttpRouter
      [Route.mk "users/:id" ["get"] Routes.nil,
       Route.mk "users/:name" ["get"] Routes.nil]).isSome = true ∧
    buildSource (compileHttpParts "users/:id" []) ≠
      buildSource (compileHttpParts "users/:name" []) ∧
    createHttpRouter
      [Route.mk "users/:id" ["get"] Routes.nil,
       Route.mk "users/:id" ["get"] Routes.nil] = none :=
  ⟨rfl, by decide, rfl⟩

/-- C5: nested routes `api` → `users` → `:id` inherit the ancestor
prefixes; resolving "/api/users/42" with `get` returns a match on the
`:id` route with captured parameters exactly `id ↦ "42"`. -/
theorem nested_routes_inherit_prefix_and_capture :
    (createHttpRouter
      [Route.mk "api" []
        (routesOf [Route.mk "users" []
          (routesOf [Route.mk ":id" ["get"] Routes.nil])])]).map
      (fun e => resolve e selectMostSpecificRoute "/api/users/42" (some "get")) =
    some (some (Matched.mk (Route.mk ":id" ["get"] Routes.nil) [("id", "42")])) :=
  rfl

/-- C9: the default HTTP specificity of a matched entry is computed from
the route's own `pattern` string alone — never from the compiled
ancestor-dependent expression — so a nested child (own pattern `:x`, one
segment) loses the selection to a flat route (`api/v1/:y`, three
segments) that matches the same full path, even though the child was
registered first. -/
theorem specificity_ignores_ancestors :
    (∀ (r : Route) (g : List (String × String)),
        calculateRouteSpecificity (Matched.mk r g) =
          calculatePatternSpecificity r.pattern) ∧
    (createHttpRouter
      [Route.mk "api" []
        (routesOf [Route.mk "v1" []
          (routesOf [Route.mk ":x" ["get"] Routes.nil])]),
       Route.mk "api/v1/:y" ["get"] Routes.nil]).map
      (fun e => resolve e selectMostSpecificRoute "/api/v1/7" (some "get")) =
    some (some (Matched.mk (Route.mk "api/v1/:y" ["get"] Routes.nil) [("y", "7")])) :=
  ⟨fun _ _ => rfl, rfl⟩

end AthleteRouter
